import Mathlib

/-!
Verification of the pictode command history engine (the `History` plugin,
`packages/plugin-history/src/index.ts`): bounded undo/redo stacks with
monotone command identities and id-directed time travel (`jump`).

Commands are opaque reversible units of work; their scene effects are out
of scope, so each invocation of `command.execute()` / `command.undo()` and
each `app.emit` notification is recorded in an event trace. The embedding
assumes the plugin is installed (`this.app` is present), so every
`this.app?.emit` call fires.
-/

/-- Modelled from the spec: the `Command` capability (`commands/base.ts`,
not among the provided sources; §3 of the design). `id`, `executed` and
`executeTime` are the metadata stamped by the engine; `tag` stands for the
opaque collaborator payload distinguishing command instances; the
`execute` / `undo` / `toJSON` capabilities act only on the out-of-scope
scene, so they carry no state here and their invocations are logged as
events. -/
structure BaseCmd where
  id : Nat
  executed : Bool
  executeTime : Nat
  tag : Nat
deriving DecidableEq, Repr

/-- Observable actions of the engine: the `app.emit` notifications plus
the invocations of a command's `execute()` / `undo()` capabilities. -/
inductive Event where
  | stackChanged (undoStack redoStack : List BaseCmd)
  | historyUndo (step : Int) (command : Option BaseCmd)
  | historyRedo (step : Int) (command : Option BaseCmd)
  | historyDestroy
  | cmdExecute (command : BaseCmd)
  | cmdUndo (command : BaseCmd)
deriving DecidableEq, Repr

/-- State of the `History` plugin. Both stacks are JS arrays with the
oldest element at index 0 and pushes/pops at the tail. -/
structure History where
  enabled : Bool
  stackSize : Nat
  undoStack : List BaseCmd
  redoStack : List BaseCmd
  idCounter : Nat
deriving DecidableEq, Repr

/-- Constructor `new History({enabled, stackSize})`; the source defaults
are `enabled = true`, `stackSize = 500`. -/
def History.mk0 (enabled : Bool) (stackSize : Nat) : History :=
  { enabled := enabled, stackSize := stackSize,
    undoStack := [], redoStack := [], idCounter := 0 }

/-- Result of one public engine call: the new state, the returned command
(JS `undefined` becomes `none`), and the events emitted by the call in
order. -/
structure OpResult where
  state : History
  ret : Option BaseCmd
  events : List Event
deriving DecidableEq, Repr

/-- State threaded through the `while (step)` loops of `undo` / `redo`:
the engine state, the `command` local, the events emitted so far, and the
live loop counter (`--step` runs on every iteration). -/
structure LoopState where
  state : History
  last : Option BaseCmd
  events : List Event
  ctr : Int
deriving DecidableEq, Repr

/-- `History.execute`: when the pre-push length strictly exceeds
`stackSize`, evict the oldest entry (`shift`); push the command; stamp
`id = ++idCounter`; if `needExecute`, invoke `command.execute()`; set
`executed` and `executeTime`; clear `redoStack`; emit `stack:changed`.
Fields are stamped on the pushed object itself, so the entry on the stack
carries the final field values. -/
def History.execute (h : History) (command : BaseCmd) (needExecute : Bool)
    (now : Nat) : OpResult :=
  let undoStack := if h.stackSize < h.undoStack.length
    then h.undoStack.tail else h.undoStack
  let idCounter := h.idCounter + 1
  let cmd1 := { command with id := idCounter }
  let cmd := { cmd1 with executed := true, executeTime := now }
  let st : History := { h with undoStack := undoStack ++ [cmd],
                               redoStack := [], idCounter := idCounter }
  { state := st, ret := none,
    events := (if needExecute then [Event.cmdExecute cmd1] else []) ++
      [Event.stackChanged st.undoStack st.redoStack] }

/-- Body of `while (step)` in `History.undo`, iterated `fuel` times: pop
the tail of `undoStack` when nonempty, invoke `command.undo()`, push onto
`redoStack`, emit `stack:changed`; the counter is decremented on every
iteration whether or not a command was popped. -/
def undoLoop : Nat → LoopState → LoopState
  | 0, s => s
  | fuel + 1, s =>
    let s1 :=
      match s.state.undoStack.getLast? with
      | none => s
      | some command =>
        let st := { s.state with
          undoStack := s.state.undoStack.dropLast,
          redoStack := s.state.redoStack ++ [command] }
        { s with
          state := st
          last := some command
          events := s.events ++ [Event.cmdUndo command,
            Event.stackChanged st.undoStack st.redoStack] }
    undoLoop fuel { s1 with ctr := s1.ctr - 1 }

/-- `History.undo`: gated by `enabled`; the `while (step)` loop runs
`step.toNat` iterations (for `step < 0` the source loop diverges, see the
termination theorem, so the embedding covers the terminating executions);
afterwards emits `history:undo` once with the exit value of the counter
and the last command processed, and returns that command. -/
def History.undo (h : History) (step : Int) : OpResult :=
  if !h.enabled then { state := h, ret := none, events := [] }
  else
    let r := undoLoop step.toNat { state := h, last := none, events := [], ctr := step }
    { state := r.state, ret := r.last,
      events := r.events ++ [Event.historyUndo r.ctr r.last] }

/-- Body of `while (step)` in `History.redo`, iterated `fuel` times: pop
the tail of `redoStack` when nonempty, invoke `command.execute()`, push
onto `undoStack`, emit `stack:changed`; the counter is decremented on
every iteration whether or not a command was popped. -/
def redoLoop : Nat → LoopState → LoopState
  | 0, s => s
  | fuel + 1, s =>
    let s1 :=
      match s.state.redoStack.getLast? with
      | none => s
      | some command =>
        let st := { s.state with
          undoStack := s.state.undoStack ++ [command],
          redoStack := s.state.redoStack.dropLast }
        { s with
          state := st
          last := some command
          events := s.events ++ [Event.cmdExecute command,
            Event.stackChanged st.undoStack st.redoStack] }
    redoLoop fuel { s1 with ctr := s1.ctr - 1 }

/-- `History.redo`: symmetric to `undo`; gated by `enabled`; finally
emits `history:redo` with the exit value of the counter and the last
command processed, and returns that command. -/
def History.redo (h : History) (step : Int) : OpResult :=
  if !h.enabled then { state := h, ret := none, events := [] }
  else
    let r := redoLoop step.toNat { state := h, last := none, events := [], ctr := step }
    { state := r.state, ret := r.last,
      events := r.events ++ [Event.historyRedo r.ctr r.last] }

/-- `History.canUndo`: `undoStack.length > 0`. -/
def History.canUndo (h : History) : Bool := decide (0 < h.undoStack.length)

/-- `History.canRedo`: `redoStack.length > 0`. -/
def History.canRedo (h : History) : Bool := decide (0 < h.redoStack.length)

/-- The redo walk of `History.jump`: after an unconditional first
`redo()`, while the command returned by `redo()` exists and its id is
still below the target, call `redo()` again. The fuel
`redoStack.length + 1` provably suffices (each recursing call either pops
one entry or returns `undefined`, which ends the walk). -/
def jumpRedoLoop (id : Nat) : Nat → OpResult → OpResult
  | 0, r => r
  | fuel + 1, r =>
    match r.ret with
    | none => r
    | some cmd =>
      if cmd.id < id then
        let r2 := r.state.redo 1
        jumpRedoLoop id fuel
          { state := r2.state, ret := r2.ret, events := r.events ++ r2.events }
      else r

/-- The `while (true)` undo walk of `History.jump`: stop when the top of
`undoStack` is `undefined` or carries the target id, otherwise `undo()`
one step. The fuel `undoStack.length + 1` provably suffices (every
recursing call pops one entry). -/
def jumpUndoLoop (id : Nat) : Nat → History → List Event → History × List Event
  | 0, h, evs => (h, evs)
  | fuel + 1, h, evs =>
    match h.undoStack.getLast? with
    | none => (h, evs)
    | some cmd =>
      if cmd.id = id then (h, evs)
      else
        let r := h.undo 1
        jumpUndoLoop id fuel r.state (evs ++ r.events)

/-- `History.jump`: gated by `enabled`; when there is no current top of
`undoStack` or the target id exceeds the top's id, walk forward with
single-step `redo`, otherwise walk backward with single-step `undo` until
the top's id equals the target; always ends with one final
`stack:changed` notification. -/
def History.jump (h : History) (id : Nat) : History × List Event :=
  if !h.enabled then (h, [])
  else
    let walk :=
      match h.undoStack.getLast? with
      | none =>
        let r := h.redo 1
        let r2 := jumpRedoLoop id (h.redoStack.length + 1)
          { state := r.state, ret := r.ret, events := r.events }
        (r2.state, r2.events)
      | some cmd =>
        if cmd.id < id then
          let r := h.redo 1
          let r2 := jumpRedoLoop id (h.redoStack.length + 1)
            { state := r.state, ret := r.ret, events := r.events }
          (r2.state, r2.events)
        else
          jumpUndoLoop id (h.undoStack.length + 1) h []
    (walk.1, walk.2 ++ [Event.stackChanged walk.1.undoStack walk.1.redoStack])

/-- `History.setStackSize`. -/
def History.setStackSize (h : History) (size : Nat) : History :=
  { h with stackSize := size }

/-- `History.enable`. -/
def History.enable (h : History) : History := { h with enabled := true }

/-- `History.disable`. -/
def History.disable (h : History) : History := { h with enabled := false }

/-- `History.isEnabled`. -/
def History.isEnabled (h : History) : Bool := h.enabled

/-- `History.dispose`: clear both stacks, emit `stack:changed` and then
`history:destroy`. -/
def History.dispose (h : History) : History × List Event :=
  ({ h with undoStack := [], redoStack := [] },
   [Event.stackChanged [] [], Event.historyDestroy])

/-- `History.execute` under the throwing-effect semantics: `throws` says
whether `command.execute()` raises when invoked. The engine has no
try/catch, so when `needExecute` is set and the command throws, the
exception escapes (`Except.error`) after the eviction check, the push and
the id stamp, and before the `executed` / `executeTime` stamps, the
`redoStack` clear and the `stack:changed` emission; the error value is the
engine state as the exception leaves it (the push is not rolled back). -/
def History.executeE (h : History) (command : BaseCmd) (needExecute : Bool)
    (now : Nat) (throws : Bool) : Except History OpResult :=
  let undoStack := if h.stackSize < h.undoStack.length
    then h.undoStack.tail else h.undoStack
  let idCounter := h.idCounter + 1
  let cmd1 := { command with id := idCounter }
  if needExecute && throws then
    Except.error { h with undoStack := undoStack ++ [cmd1], idCounter := idCounter }
  else
    let cmd := { cmd1 with executed := true, executeTime := now }
    let st : History := { h with undoStack := undoStack ++ [cmd],
                                 redoStack := [], idCounter := idCounter }
    Except.ok { state := st
                ret := none
                events := (if needExecute then [Event.cmdExecute cmd1] else []) ++
                  [Event.stackChanged st.undoStack st.redoStack] }

/-- Single-step `History.undo` under the throwing-effect semantics:
`throws` says whether the popped command's `undo()` raises. The engine has
no try/catch, so the exception escapes after the pop and before the
`redoStack` push and both emissions; the error value is the engine state
as the exception leaves it (the pop is not rolled back). -/
def History.undoE (h : History) (throws : Bool) : Except History OpResult :=
  if !h.enabled then Except.ok { state := h, ret := none, events := [] }
  else
    match h.undoStack.getLast? with
    | none => Except.ok { state := h
                          ret := none
                          events := [Event.historyUndo 0 none] }
    | some command =>
      if throws then
        Except.error { h with undoStack := h.undoStack.dropLast }
      else
        let st := { h with undoStack := h.undoStack.dropLast,
                           redoStack := h.redoStack ++ [command] }
        Except.ok { state := st
                    ret := some command
                    events := [Event.cmdUndo command,
                      Event.stackChanged st.undoStack st.redoStack,
                      Event.historyUndo 0 (some command)] }

/-- Single-step `History.redo` under the throwing-effect semantics:
`throws` says whether the popped command's `execute()` raises when
invoked inside `redo`. The engine has no try/catch, so the exception
escapes after the pop from `redoStack` and before the `undoStack` push
and both emissions; the error value is the engine state as the exception
leaves it (the pop is not rolled back, and the popped command sits on
neither stack). -/
def History.redoE (h : History) (throws : Bool) : Except History OpResult :=
  if !h.enabled then Except.ok { state := h, ret := none, events := [] }
  else
    match h.redoStack.getLast? with
    | none => Except.ok { state := h
                          ret := none
                          events := [Event.historyRedo 0 none] }
    | some command =>
      if throws then
        Except.error { h with redoStack := h.redoStack.dropLast }
      else
        let st := { h with undoStack := h.undoStack ++ [command],
                           redoStack := h.redoStack.dropLast }
        Except.ok { state := st
                    ret := some command
                    events := [Event.cmdExecute command,
                      Event.stackChanged st.undoStack st.redoStack,
                      Event.historyRedo 0 (some command)] }

/-- The two stacks merged in id order: `undoStack` then `redoStack`
reversed (the tail of `redoStack` is the most recently undone, i.e. the
smallest-id redoable command). `undo` / `redo` / `jump` only move
commands between stack tails, so this list is preserved by them. -/
def combined (h : History) : List BaseCmd := h.undoStack ++ h.redoStack.reverse

/-- Engine invariant: ids strictly increase along `combined`, every
stored id has already been dispensed by `idCounter`, and the merged size
never exceeds `stackSize + 1` (the strict `>` eviction check lets the
stack reach `stackSize + 1`). -/
def HistInv (h : History) : Prop :=
  ((combined h).map BaseCmd.id).Pairwise (· < ·) ∧
  (∀ c ∈ combined h, c.id ≤ h.idCounter) ∧
  (combined h).length ≤ h.stackSize + 1

/-- States reachable from a fresh engine by the public operations. -/
inductive Reach : History → Prop where
  | init (enabled : Bool) (stackSize : Nat) : Reach (History.mk0 enabled stackSize)
  | exec {h : History} (c : BaseCmd) (ne : Bool) (t : Nat) :
      Reach h → Reach (h.execute c ne t).state
  | undo {h : History} (step : Int) : Reach h → Reach (h.undo step).state
  | redo {h : History} (step : Int) : Reach h → Reach (h.redo step).state
  | jump {h : History} (id : Nat) : Reach h → Reach (h.jump id).1
  | enable {h : History} : Reach h → Reach h.enable
  | disable {h : History} : Reach h → Reach h.disable

/-- When disabled, `undo` returns immediately: unchanged state, no
return value, no events. -/
theorem undo_disabled (h : History) (hd : h.enabled = false) (step : Int) :
    h.undo step = { state := h, ret := none, events := [] } := by
  simp [History.undo, hd]

/-- When disabled, `redo` returns immediately. -/
theorem redo_disabled (h : History) (hd : h.enabled = false) (step : Int) :
    h.redo step = { state := h, ret := none, events := [] } := by
  simp [History.redo, hd]

/-- When disabled, `jump` returns immediately. -/
theorem jump_disabled (h : History) (hd : h.enabled = false) (id : Nat) :
    h.jump id = (h, []) := by
  simp [History.jump, hd]

/-- Single-step `undo` on an empty undo stack pops nothing and emits only
the final `history:undo` notification. -/
theorem undo_one_nil (h : History) (hen : h.enabled = true)
    (hu : h.undoStack = []) :
    h.undo 1 = { state := h, ret := none, events := [Event.historyUndo 0 none] } := by
  simp [History.undo, undoLoop, hen, hu]

/-- Single-step `undo` on a nonempty undo stack pops the tail command,
pushes it onto `redoStack`, and emits `stack:changed` then `history:undo`. -/
theorem undo_one_concat (h : History) (hen : h.enabled = true)
    (l : List BaseCmd) (c : BaseCmd) (hu : h.undoStack = l ++ [c]) :
    h.undo 1 = { state := { h with undoStack := l, redoStack := h.redoStack ++ [c] }
                 ret := some c
                 events := [Event.cmdUndo c,
                   Event.stackChanged l (h.redoStack ++ [c]),
                   Event.historyUndo 0 (some c)] } := by
  simp [History.undo, undoLoop, hen, hu]

/-- Single-step `redo` on an empty redo stack pops nothing and emits only
the final `history:redo` notification. -/
theorem redo_one_nil (h : History) (hen : h.enabled = true)
    (hr : h.redoStack = []) :
    h.redo 1 = { state := h, ret := none, events := [Event.historyRedo 0 none] } := by
  simp [History.redo, redoLoop, hen, hr]

/-- Single-step `redo` on a nonempty redo stack pops the tail command,
pushes it onto `undoStack`, and emits `stack:changed` then `history:redo`. -/
theorem redo_one_concat (h : History) (hen : h.enabled = true)
    (l : List BaseCmd) (c : BaseCmd) (hr : h.redoStack = l ++ [c]) :
    h.redo 1 = { state := { h with undoStack := h.undoStack ++ [c], redoStack := l }
                 ret := some c
                 events := [Event.cmdExecute c,
                   Event.stackChanged (h.undoStack ++ [c]) l,
                   Event.historyRedo 0 (some c)] } := by
  simp [History.redo, redoLoop, hen, hr]

/-- The data of a `History` state that `undo` / `redo` / `jump` cannot
change: the merged stack content, the id counter, the capacity, and the
gate flag. -/
def skel (h : History) : List BaseCmd × Nat × Nat × Bool :=
  (combined h, h.idCounter, h.stackSize, h.enabled)

/-- Each iteration of the undo loop moves the tail of `undoStack` to the
tail of `redoStack`, so the skeleton is preserved. -/
theorem skel_undoLoop : ∀ (fuel : Nat) (s : LoopState),
    skel (undoLoop fuel s).state = skel s.state := by
  intro fuel
  induction fuel with
  | zero => intro s; rfl
  | succ n ih =>
    intro s
    rw [undoLoop]
    rcases hc : s.state.undoStack.getLast? with _ | c
    · simpa [hc] using ih _
    · have hdec := List.dropLast_append_getLast? c hc
      refine (ih _).trans ?_
      simp only [hc]
      simp only [skel, combined]
      rw [← hdec]
      simp

/-- Each iteration of the redo loop moves the tail of `redoStack` to the
tail of `undoStack`, so the skeleton is preserved. -/
theorem skel_redoLoop : ∀ (fuel : Nat) (s : LoopState),
    skel (redoLoop fuel s).state = skel s.state := by
  intro fuel
  induction fuel with
  | zero => intro s; rfl
  | succ n ih =>
    intro s
    rw [redoLoop]
    rcases hc : s.state.redoStack.getLast? with _ | c
    · simpa [hc] using ih _
    · have hdec := List.dropLast_append_getLast? c hc
      refine (ih _).trans ?_
      simp only [hc]
      simp only [skel, combined]
      rw [← hdec]
      simp

/-- `undo` preserves the skeleton. -/
theorem skel_undo (h : History) (step : Int) : skel (h.undo step).state = skel h := by
  by_cases hen : h.enabled
  · simp only [History.undo, hen]
    simpa using skel_undoLoop step.toNat { state := h, last := none, events := [], ctr := step }
  · simp at hen
    simp [History.undo, hen]

/-- `redo` preserves the skeleton. -/
theorem skel_redo (h : History) (step : Int) : skel (h.redo step).state = skel h := by
  by_cases hen : h.enabled
  · simp only [History.redo, hen]
    simpa using skel_redoLoop step.toNat { state := h, last := none, events := [], ctr := step }
  · simp at hen
    simp [History.redo, hen]

/-- The redo walk of `jump` preserves the skeleton. -/
theorem skel_jumpRedoLoop (id : Nat) : ∀ (fuel : Nat) (r : OpResult),
    skel (jumpRedoLoop id fuel r).state = skel r.state := by
  intro fuel
  induction fuel with
  | zero => intro r; rfl
  | succ n ih =>
    intro r
    rw [jumpRedoLoop]
    rcases hr : r.ret with _ | cmd
    · rfl
    · by_cases hlt : cmd.id < id
      · simp only [hlt, if_true]
        exact (ih _).trans (by simpa using skel_redo r.state 1)
      · simp [hlt]

/-- The undo walk of `jump` preserves the skeleton. -/
theorem skel_jumpUndoLoop (id : Nat) : ∀ (fuel : Nat) (h : History) (evs : List Event),
    skel (jumpUndoLoop id fuel h evs).1 = skel h := by
  intro fuel
  induction fuel with
  | zero => intro h evs; rfl
  | succ n ih =>
    intro h evs
    rw [jumpUndoLoop]
    rcases hc : h.undoStack.getLast? with _ | cmd
    · rfl
    · by_cases heq : cmd.id = id
      · simp [heq]
      · simp only [heq, if_false]
        exact (ih _ _).trans (by simpa using skel_undo h 1)

/-- `jump` preserves the skeleton. -/
theorem skel_jump (h : History) (id : Nat) : skel (h.jump id).1 = skel h := by
  by_cases hen : h.enabled
  · simp only [History.jump, hen, Bool.not_true, Bool.false_eq_true, if_false]
    rcases hc : h.undoStack.getLast? with _ | cmd
    · exact (skel_jumpRedoLoop id _ _).trans (by simpa using skel_redo h 1)
    · by_cases hlt : cmd.id < id
      · simp only [hlt, if_true]
        exact (skel_jumpRedoLoop id _ _).trans (by simpa using skel_redo h 1)
      · simp only [hlt, if_false]
        exact skel_jumpUndoLoop id _ h []
  · simp at hen
    simp [History.jump, hen]

/-- The loop counter of the undo loop is decremented on every iteration,
whether or not a command was popped. -/
theorem undoLoop_ctr : ∀ (fuel : Nat) (s : LoopState),
    (undoLoop fuel s).ctr = s.ctr - fuel := by
  intro fuel
  induction fuel with
  | zero => intro s; simp [undoLoop]
  | succ n ih =>
    intro s
    rw [undoLoop]
    rcases hc : s.state.undoStack.getLast? with _ | c <;>
      · simp only [hc, ih]
        push_cast
        ring

/-- The loop counter of the redo loop is decremented on every iteration,
whether or not a command was popped. -/
theorem redoLoop_ctr : ∀ (fuel : Nat) (s : LoopState),
    (redoLoop fuel s).ctr = s.ctr - fuel := by
  intro fuel
  induction fuel with
  | zero => intro s; simp [redoLoop]
  | succ n ih =>
    intro s
    rw [redoLoop]
    rcases hc : s.state.redoStack.getLast? with _ | c <;>
      · simp only [hc, ih]
        push_cast
        ring

/-- Explicit form of the state produced by `execute`. -/
theorem execute_state (h : History) (c : BaseCmd) (ne : Bool) (t : Nat) :
    (h.execute c ne t).state =
      { h with
        undoStack := (if h.stackSize < h.undoStack.length
            then h.undoStack.tail else h.undoStack) ++
          [{ c with id := h.idCounter + 1, executed := true, executeTime := t }]
        redoStack := []
        idCounter := h.idCounter + 1 } := rfl

/-- The invariant only reads the skeleton components shared by two
states. -/
theorem histInv_of_skel {h1 h2 : History} (hs : skel h2 = skel h1)
    (hi : HistInv h1) : HistInv h2 := by
  have hc : combined h2 = combined h1 := congrArg Prod.fst hs
  have hn : h2.idCounter = h1.idCounter := congrArg (fun p => p.2.1) hs
  have hss : h2.stackSize = h1.stackSize := congrArg (fun p => p.2.2.1) hs
  unfold HistInv at hi ⊢
  rw [hc, hn, hss]
  exact hi

/-- `execute` preserves the engine invariant: the fresh id `idCounter + 1`
is larger than every stored id, eviction only removes the head, and the
pre-push strict `>` check keeps the merged size within `stackSize + 1`. -/
theorem histInv_execute (h : History) (hi : HistInv h) (c : BaseCmd)
    (ne : Bool) (t : Nat) : HistInv (h.execute c ne t).state := by
  obtain ⟨hp, hb, hl⟩ := hi
  have hpu : (h.undoStack.map BaseCmd.id).Pairwise (· < ·) := by
    rw [combined, List.map_append] at hp
    exact (List.pairwise_append.mp hp).1
  have hulen : h.undoStack.length ≤ h.stackSize + 1 := by
    have h1 := hl
    simp only [combined, List.length_append] at h1
    omega
  have hsub : (if h.stackSize < h.undoStack.length
      then h.undoStack.tail else h.undoStack).Sublist h.undoStack := by
    split
    · exact List.tail_sublist _
    · exact List.Sublist.refl _
  rw [execute_state]
  refine ⟨?_, ?_, ?_⟩
  · simp only [combined, List.reverse_nil, List.append_nil, List.map_append]
    refine List.pairwise_append.mpr ⟨hpu.sublist (hsub.map _), by simp, ?_⟩
    intro a ha b hbm
    simp only [List.map_cons, List.map_nil, List.mem_singleton] at hbm
    subst hbm
    obtain ⟨x, hx, hax⟩ := List.mem_map.mp ha
    have hxid : x.id ≤ h.idCounter :=
      hb x (by exact List.mem_append_left _ (hsub.subset hx))
    omega
  · intro x hx
    simp only [combined, List.reverse_nil, List.append_nil, List.mem_append,
      List.mem_singleton] at hx
    rcases hx with hx | hx
    · have : x.id ≤ h.idCounter :=
        hb x (List.mem_append_left _ (hsub.subset hx))
      simp only []
      omega
    · subst hx
      simp
  · simp only [combined, List.reverse_nil, List.append_nil, List.length_append,
      List.length_singleton]
    split
    · simp only [List.length_tail]
      omega
    · omega

/-- Every reachable engine state satisfies the invariant. -/
theorem reach_histInv {h : History} (hr : Reach h) : HistInv h := by
  induction hr with
  | init e s => simp [HistInv, combined, History.mk0]
  | exec c ne t _ ih => exact histInv_execute _ ih c ne t
  | undo step _ ih => exact histInv_of_skel (skel_undo _ step) ih
  | redo step _ ih => exact histInv_of_skel (skel_redo _ step) ih
  | jump id _ ih => exact histInv_of_skel (skel_jump _ id) ih
  | enable _ ih => simpa [HistInv, History.enable, combined] using ih
  | disable _ ih => simpa [HistInv, History.disable, combined] using ih

/-- Case analysis of single-step `redo` on an enabled engine. -/
theorem redo_one_cases (h : History) (hen : h.enabled = true) :
    (h.redoStack = [] ∧
      h.redo 1 = { state := h, ret := none, events := [Event.historyRedo 0 none] }) ∨
    (∃ l c, h.redoStack = l ++ [c] ∧
      h.redo 1 = { state := { h with undoStack := h.undoStack ++ [c], redoStack := l }
                   ret := some c
                   events := [Event.cmdExecute c,
                     Event.stackChanged (h.undoStack ++ [c]) l,
                     Event.historyRedo 0 (some c)] }) := by
  rcases h.redoStack.eq_nil_or_concat with hr | ⟨l, c, hr⟩
  · exact Or.inl ⟨hr, redo_one_nil h hen hr⟩
  · rw [List.concat_eq_append] at hr
    exact Or.inr ⟨l, c, hr, redo_one_concat h hen l c hr⟩

/-- The redo walk of `jump` stops either on a top of `undoStack` whose id
has reached the target or with the redo stack exhausted, provided the
fuel dominates the redo stack size. -/
theorem jumpRedoLoop_land (id : Nat) : ∀ (fuel : Nat) (r : OpResult),
    r.state.enabled = true →
    (∀ c, r.ret = some c → r.state.undoStack.getLast? = some c) →
    (r.ret = none → r.state.redoStack = []) →
    (r.ret = none ∨ r.state.redoStack.length < fuel) →
    ((∃ c, (jumpRedoLoop id fuel r).state.undoStack.getLast? = some c ∧ id ≤ c.id) ∨
      (jumpRedoLoop id fuel r).state.redoStack = []) := by
  intro fuel
  induction fuel with
  | zero =>
    intro r _ _ hnone hbound
    have hn : r.ret = none := by
      rcases hbound with hb | hb
      · exact hb
      · omega
    exact Or.inr (by simpa [jumpRedoLoop] using hnone hn)
  | succ n ih =>
    intro r hen htop hnone hbound
    rcases hr : r.ret with _ | cmd
    · rw [jumpRedoLoop]
      simp only [hr]
      exact Or.inr (hnone hr)
    · by_cases hlt : cmd.id < id
      · rw [jumpRedoLoop]
        simp only [hr, hlt, if_true]
        rcases redo_one_cases r.state hen with ⟨hre, heq⟩ | ⟨l, c, hre, heq⟩
        · refine ih _ ?_ ?_ ?_ ?_ <;> simp [heq, hre, hen]
        · refine ih _ ?_ ?_ ?_ ?_
          · simp [heq, hen]
          · intro c' hc'
            simp only [heq] at hc' ⊢
            simp only [Option.some.injEq] at hc'
            subst hc'
            simp
          · simp [heq]
          · have hlen : r.state.redoStack.length < n + 1 := by
              rcases hbound with hb | hb
              · rw [hr] at hb; cases hb
              · exact hb
            rw [hre] at hlen
            simp only [List.length_append, List.length_singleton] at hlen
            right
            simp only [heq]
            omega
      · rw [jumpRedoLoop]
        simp only [hr, hlt, if_false]
        exact Or.inl ⟨cmd, htop cmd hr, Nat.le_of_not_lt hlt⟩

/-- The undo walk of `jump` stops either on a top of `undoStack` carrying
exactly the target id or with the undo stack exhausted, provided the fuel
dominates the undo stack size. -/
theorem jumpUndoLoop_land (id : Nat) : ∀ (fuel : Nat) (h : History) (evs : List Event),
    h.enabled = true → h.undoStack.length < fuel →
    ((∃ c, (jumpUndoLoop id fuel h evs).1.undoStack.getLast? = some c ∧ c.id = id) ∨
      (jumpUndoLoop id fuel h evs).1.undoStack = []) := by
  intro fuel
  induction fuel with
  | zero => intro h evs _ hlen; omega
  | succ n ih =>
    intro h evs hen hlen
    rcases hc : h.undoStack.getLast? with _ | cmd
    · rw [jumpUndoLoop]
      simp only [hc]
      exact Or.inr (List.getLast?_eq_none_iff.mp hc)
    · by_cases heq : cmd.id = id
      · rw [jumpUndoLoop]
        simp only [hc, heq, if_true]
        exact Or.inl ⟨cmd, rfl, heq⟩
      · rw [jumpUndoLoop]
        simp only [hc, heq, if_false]
        have hdec := List.dropLast_append_getLast? cmd hc
        have hund := undo_one_concat h hen h.undoStack.dropLast cmd hdec.symm
        rw [hund]
        refine ih _ _ (by simp [hen]) ?_
        have hll : h.undoStack.length = h.undoStack.dropLast.length + 1 := by
          conv_lhs => rw [← hdec]
          simp
        show h.undoStack.dropLast.length < n
        omega

/-- The undo loop only appends `command.undo()` invocations and
`stack:changed` notifications to the trace; the single `history:undo`
notification is emitted after the loop. -/
theorem undoLoop_events : ∀ (fuel : Nat) (s : LoopState),
    ∃ evs, (undoLoop fuel s).events = s.events ++ evs ∧
      ∀ st c, Event.historyUndo st c ∉ evs := by
  intro fuel
  induction fuel with
  | zero => intro s; exact ⟨[], by simp [undoLoop], by simp⟩
  | succ n ih =>
    intro s
    rw [undoLoop]
    rcases hc : s.state.undoStack.getLast? with _ | cmd
    · simp only [hc]
      obtain ⟨evs, h1, h2⟩ := ih { s with ctr := s.ctr - 1 }
      exact ⟨evs, by simpa using h1, h2⟩
    · simp only [hc]
      obtain ⟨evs, h1, h2⟩ := ih
        { state := { s.state with
            undoStack := s.state.undoStack.dropLast
            redoStack := s.state.redoStack ++ [cmd] }
          last := some cmd
          events := s.events ++ [Event.cmdUndo cmd,
            Event.stackChanged s.state.undoStack.dropLast (s.state.redoStack ++ [cmd])]
          ctr := s.ctr - 1 }
      refine ⟨[Event.cmdUndo cmd,
        Event.stackChanged s.state.undoStack.dropLast (s.state.redoStack ++ [cmd])] ++ evs,
        ?_, ?_⟩
      · rw [h1]
        simp
      · intro st c hmem
        simp only [List.cons_append, List.nil_append, List.mem_cons] at hmem
        rcases hmem with h | h | h
        · cases h
        · cases h
        · exact h2 st c h

/-- Concrete command payloads for the concrete scenarios (tags 1-4; `id`
is 0 until the engine stamps it). -/
def cmdA : BaseCmd := { id := 0, executed := false, executeTime := 0, tag := 1 }

/-- Second concrete command payload. -/
def cmdB : BaseCmd := { id := 0, executed := false, executeTime := 0, tag := 2 }

/-- Third concrete command payload. -/
def cmdC : BaseCmd := { id := 0, executed := false, executeTime := 0, tag := 3 }

/-- Fourth concrete command payload. -/
def cmdD : BaseCmd := { id := 0, executed := false, executeTime := 0, tag := 4 }

/-- C5: after every call `execute(c, needExecute)`, `redoStack` is empty,
regardless of its contents before the call. -/
theorem c5_redo_cleared (h : History) (c : BaseCmd) (ne : Bool) (t : Nat) :
    (h.execute c ne t).state.redoStack = [] := rfl

/-- C6: the eviction check of `execute` is strictly greater-than: no
eviction happens while the pre-push length is at most `stackSize` (the
new command is appended to the whole stack), the oldest entry is shifted
off exactly when the pre-push length exceeds `stackSize`, and hence four
executes at capacity 3 leave the stack transiently at
`stackSize + 1 = 4` entries. -/
theorem c6_eviction_threshold (h : History) (c : BaseCmd) (ne : Bool) (t : Nat) :
    (h.undoStack.length ≤ h.stackSize →
      (h.execute c ne t).state.undoStack =
        h.undoStack ++ [{ c with id := h.idCounter + 1, executed := true, executeTime := t }]) ∧
    (h.stackSize < h.undoStack.length →
      (h.execute c ne t).state.undoStack =
        h.undoStack.tail ++ [{ c with id := h.idCounter + 1, executed := true, executeTime := t }]) ∧
    (((((History.mk0 true 3).execute cmdA true 0).state.execute cmdB true 1).state.execute
        cmdC true 2).state.execute cmdD true 3).state.undoStack.length =
      (History.mk0 true 3).stackSize + 1 := by
  refine ⟨?_, ?_, by decide⟩
  · intro hle
    rw [execute_state]
    simp only []
    rw [if_neg (by omega)]
  · intro hgt
    rw [execute_state]
    simp only []
    rw [if_pos hgt]

/-- Witness for C6 at a concrete input: executing onto a fresh capacity-3
engine appends without eviction. -/
theorem c6_witness :
    ((History.mk0 true 3).execute cmdA true 0).state.undoStack =
      (History.mk0 true 3).undoStack ++
        [{ cmdA with id := (History.mk0 true 3).idCounter + 1, executed := true, executeTime := 0 }] :=
  (c6_eviction_threshold (History.mk0 true 3) cmdA true 0).1 (by decide)

/-- C8: when `enabled` is false, `undo`, `redo` and `jump` return
`undefined` and change nothing (no command capability is invoked, no
event fires), while `execute` ignores the flag entirely: its result on a
state with any `enabled` value differs only by carrying that flag along. -/
theorem c8_disabled_gate (h : History) (hd : h.enabled = false) (step : Int)
    (id : Nat) (c : BaseCmd) (ne : Bool) (t : Nat) :
    h.undo step = { state := h, ret := none, events := [] } ∧
    h.redo step = { state := h, ret := none, events := [] } ∧
    h.jump id = (h, []) ∧
    (∀ e : Bool, ({ h with enabled := e }).execute c ne t =
      { state := { (h.execute c ne t).state with enabled := e }
        ret := (h.execute c ne t).ret
        events := (h.execute c ne t).events }) := by
  refine ⟨undo_disabled h hd step, redo_disabled h hd step, jump_disabled h hd id, ?_⟩
  intro e
  rfl

/-- Witness for C8 at a concrete input: a freshly disabled engine. -/
theorem c8_witness :
    (History.mk0 false 500).undo 1 =
      { state := History.mk0 false 500, ret := none, events := [] } ∧
    (History.mk0 false 500).redo 1 =
      { state := History.mk0 false 500, ret := none, events := [] } ∧
    (History.mk0 false 500).jump 1 = (History.mk0 false 500, []) ∧
    (∀ e : Bool, ({ History.mk0 false 500 with enabled := e }).execute cmdA true 0 =
      { state := { ((History.mk0 false 500).execute cmdA true 0).state with enabled := e }
        ret := ((History.mk0 false 500).execute cmdA true 0).ret
        events := ((History.mk0 false 500).execute cmdA true 0).events }) :=
  c8_disabled_gate (History.mk0 false 500) rfl 1 1 cmdA true 0

/-- C10: the `while (step)` loops of `undo` / `redo` decrement the
counter on every iteration even when the stack is empty, so after `fuel`
iterations the counter is `step - fuel`; for `step ≥ 0` the counter first
reaches 0 after exactly `step` iterations (the fuel the embedding uses),
and for `step < 0` it never reaches 0, so the source loop never
terminates and `step ≥ 0` is a termination precondition. -/
theorem c10_loop_termination (step : Int) (fuel : Nat) (s : LoopState) :
    ((undoLoop fuel s).ctr = s.ctr - fuel ∧ (redoLoop fuel s).ctr = s.ctr - fuel) ∧
    (0 ≤ step → step - (step.toNat : Int) = 0 ∧
      ∀ n : Nat, (n : Int) < step → step - (n : Int) ≠ 0) ∧
    (step < 0 → ∀ n : Nat, step - (n : Int) ≠ 0) ∧
    (∀ h : History, h.enabled = true →
      (h.undo step).state =
        (undoLoop step.toNat { state := h, last := none, events := [], ctr := step }).state) := by
  refine ⟨⟨undoLoop_ctr fuel s, redoLoop_ctr fuel s⟩, ?_, ?_, ?_⟩
  · intro hs
    refine ⟨by rw [Int.toNat_of_nonneg hs]; ring, ?_⟩
    intro n hn
    omega
  · intro hs n
    omega
  · intro h hen
    simp [History.undo, hen]

/-- Witness for C10 at a concrete input: two requested steps on an empty
enabled engine. -/
theorem c10_witness :
    ((undoLoop 2 { state := History.mk0 true 1, last := none, events := [], ctr := 2 }).ctr =
        (2 : Int) - (2 : Nat) ∧
      (redoLoop 2 { state := History.mk0 true 1, last := none, events := [], ctr := 2 }).ctr =
        (2 : Int) - (2 : Nat)) ∧
    (0 ≤ (2 : Int) → (2 : Int) - (((2 : Int).toNat : Int)) = 0 ∧
      ∀ n : Nat, (n : Int) < 2 → (2 : Int) - (n : Int) ≠ 0) ∧
    ((2 : Int) < 0 → ∀ n : Nat, (2 : Int) - (n : Int) ≠ 0) ∧
    (∀ h : History, h.enabled = true →
      (h.undo 2).state =
        (undoLoop (2 : Int).toNat { state := h, last := none, events := [], ctr := 2 }).state) :=
  c10_loop_termination 2 2
    { state := History.mk0 true 1, last := none, events := [], ctr := 2 }

/-- Capacity-3 scenario of C1: four sequential executes with
`needExecute = true` on a fresh engine with `stackSize = 3`. -/
def c1state : History :=
  (((((History.mk0 true 3).execute cmdA true 0).state.execute cmdB true 1).state.execute
      cmdC true 2).state.execute cmdD true 3).state

/-- C1 counterexample: after the fourth `execute` at capacity 3 the undo
stack holds the four commands with ids 1,2,3,4 — length 4 > 3 — because
the strict `>` eviction check never fired, contradicting both the claimed
bound `length ≤ capacity` and the claimed eviction of the oldest entry at
this point. -/
theorem c1_counterexample :
    c1state.undoStack.map BaseCmd.id = [1, 2, 3, 4] ∧
    ¬ c1state.undoStack.length ≤ c1state.stackSize := by decide

/-- C1 (amended): for every reachable state, each `execute` call keeps
`undoStack` within `stackSize + 1` entries (not `stackSize`); when the
pre-push length exceeds `stackSize` the evicted entry is exactly the
oldest command, whose id is smaller than that of every retained command;
and `execute` never invokes any command's `undo()`. -/
theorem c1_capacity (h : History) (hr : Reach h) (c : BaseCmd)
    (ne : Bool) (t : Nat) :
    (h.execute c ne t).state.undoStack.length ≤ h.stackSize + 1 ∧
    (h.stackSize < h.undoStack.length →
      ∃ ev rest, h.undoStack = ev :: rest ∧
        (h.execute c ne t).state.undoStack =
          rest ++ [{ c with id := h.idCounter + 1, executed := true, executeTime := t }] ∧
        ∀ c' ∈ rest, ev.id < c'.id) ∧
    (∀ cu, Event.cmdUndo cu ∉ (h.execute c ne t).events) := by
  obtain ⟨hp, hb, hl⟩ := reach_histInv hr
  have hulen : h.undoStack.length ≤ h.stackSize + 1 := by
    have h1 := hl
    simp only [combined, List.length_append] at h1
    omega
  have hpu : (h.undoStack.map BaseCmd.id).Pairwise (· < ·) := by
    rw [combined, List.map_append] at hp
    exact (List.pairwise_append.mp hp).1
  refine ⟨?_, ?_, ?_⟩
  · rw [execute_state]
    by_cases hev : h.stackSize < h.undoStack.length
    · simp only [if_pos hev, List.length_append, List.length_singleton, List.length_tail]
      omega
    · simp only [if_neg hev, List.length_append, List.length_singleton]
      omega
  · intro hev
    rcases hu : h.undoStack with _ | ⟨ev, rest⟩
    · rw [hu] at hev
      simp at hev
    · refine ⟨ev, rest, rfl, ?_, ?_⟩
      · rw [execute_state]
        have hev2 : h.stackSize < (ev :: rest).length := hu ▸ hev
        simp only [hu, List.tail_cons, if_pos hev2]
      · intro c' hc'
        have hpc := hpu
        rw [hu] at hpc
        simp only [List.map_cons] at hpc
        exact (List.pairwise_cons.mp hpc).1 c'.id (List.mem_map_of_mem _ hc')
  · intro cu
    cases ne <;> simp [History.execute]

/-- Witness for C1 at a concrete input: a fresh capacity-3 engine. -/
theorem c1_witness :
    (((History.mk0 true 3).execute cmdA true 0).state.undoStack.length ≤
        (History.mk0 true 3).stackSize + 1) ∧
    ((History.mk0 true 3).stackSize < (History.mk0 true 3).undoStack.length →
      ∃ ev rest, (History.mk0 true 3).undoStack = ev :: rest ∧
        ((History.mk0 true 3).execute cmdA true 0).state.undoStack =
          rest ++ [{ cmdA with id := (History.mk0 true 3).idCounter + 1, executed := true, executeTime := 0 }] ∧
        ∀ c' ∈ rest, ev.id < c'.id) ∧
    (∀ cu, Event.cmdUndo cu ∉ ((History.mk0 true 3).execute cmdA true 0).events) :=
  c1_capacity (History.mk0 true 3) (Reach.init true 3) cmdA true 0

/-- C2 counterexample: `undo(2)` on an enabled engine with an empty undo
stack satisfies 0 of the 2 requested steps, yet the `history:undo`
notification carries step count 0, not the 2 unsatisfied steps the claim
predicts. -/
theorem c2_counterexample :
    (History.undo (History.mk0 true 500) 2).events = [Event.historyUndo 0 none] ∧
    (0 : Int) ≠ 2 := by decide

/-- C2 (amended): after `undo(step)` with `step ≥ 0` on an enabled
engine, the single final `history:undo` notification always carries step
count 0 — the loop decrements the counter on every iteration, even when
`undoStack` is already empty, so the residual count never reflects how
many requested steps went unsatisfied — together with the last command
processed (the returned command). -/
theorem c2_notification (h : History) (step : Int) (hen : h.enabled = true)
    (hs : 0 ≤ step) :
    ∃ evs, (h.undo step).events = evs ++ [Event.historyUndo 0 (h.undo step).ret] ∧
      ∀ st c, Event.historyUndo st c ∉ evs := by
  obtain ⟨evs, h1, h2⟩ :=
    undoLoop_events step.toNat { state := h, last := none, events := [], ctr := step }
  have hctr : (undoLoop step.toNat
      { state := h, last := none, events := [], ctr := step }).ctr = 0 := by
    rw [undoLoop_ctr]
    simp only []
    omega
  refine ⟨evs, ?_, h2⟩
  simp only [History.undo, hen, Bool.not_true, Bool.false_eq_true, if_false]
  rw [h1, hctr]
  simp

/-- Witness for C2 at a concrete input: one step on a fresh engine. -/
theorem c2_witness :
    ∃ evs, ((History.mk0 true 500).undo 1).events =
        evs ++ [Event.historyUndo 0 (((History.mk0 true 500).undo 1).ret)] ∧
      ∀ st c, Event.historyUndo st c ∉ evs :=
  c2_notification (History.mk0 true 500) 1 rfl (by decide)

/-- A reachable state with exactly one command (stamped id 1) on the
undo stack. -/
def oneCmdState : History := ((History.mk0 true 500).execute cmdA true 0).state

/-- C3: `jump(targetId)` on an enabled engine: when the target equals the
id of the current top of `undoStack`, it is a no-op — state unchanged and
only the one final mandatory `stack:changed` notification emitted; when
there is no top or the target exceeds the top's id, the walk by
single-step `redo` ends with the new top's id at or above the target or
with `redoStack` exhausted; otherwise the walk by single-step `undo` ends
with the top carrying exactly the target id or with `undoStack`
exhausted. -/
theorem c3_jump (h : History) (id : Nat) (hen : h.enabled = true) :
    (∀ c, h.undoStack.getLast? = some c → c.id = id →
      h.jump id = (h, [Event.stackChanged h.undoStack h.redoStack])) ∧
    ((h.undoStack.getLast? = none ∨ ∃ c, h.undoStack.getLast? = some c ∧ c.id < id) →
      (∃ c, (h.jump id).1.undoStack.getLast? = some c ∧ id ≤ c.id) ∨
        (h.jump id).1.redoStack = []) ∧
    (∀ c, h.undoStack.getLast? = some c → id ≤ c.id →
      (∃ c', (h.jump id).1.undoStack.getLast? = some c' ∧ c'.id = id) ∨
        (h.jump id).1.undoStack = []) := by
  refine ⟨?_, ?_, ?_⟩
  · intro c hc hcid
    have hnlt : ¬ (c.id < id) := by omega
    simp only [History.jump, hen, Bool.not_true, Bool.false_eq_true, if_false, hc,
      hnlt]
    rw [jumpUndoLoop]
    simp only [hc]
    rw [if_pos hcid]
    rfl
  · intro hcase
    have hstep : (h.jump id).1 = (jumpRedoLoop id (h.redoStack.length + 1)
        { state := (h.redo 1).state, ret := (h.redo 1).ret,
          events := (h.redo 1).events }).state := by
      rcases hcase with hc | ⟨c, hc, hlt⟩
      · simp only [History.jump, hen, Bool.not_true, Bool.false_eq_true, if_false, hc]
      · simp only [History.jump, hen, Bool.not_true, Bool.false_eq_true, if_false, hc,
          hlt, if_true]
    rw [hstep]
    rcases redo_one_cases h hen with ⟨hre, heq⟩ | ⟨l, c0, hre, heq⟩
    · refine jumpRedoLoop_land id _ _ ?_ ?_ ?_ ?_ <;> simp [heq, hre, hen]
    · refine jumpRedoLoop_land id _ _ ?_ ?_ ?_ ?_
      · simp [heq, hen]
      · intro c' hc'
        simp only [heq] at hc' ⊢
        simp only [Option.some.injEq] at hc'
        subst hc'
        simp
      · simp [heq]
      · right
        simp only [heq]
        rw [hre]
        simp only [List.length_append, List.length_singleton]
        omega
  · intro c hc hle
    by_cases hcid : c.id = id
    · left
      have hnlt : ¬ (c.id < id) := by omega
      simp only [History.jump, hen, Bool.not_true, Bool.false_eq_true, if_false, hc,
        hnlt]
      rw [jumpUndoLoop]
      simp only [hc]
      rw [if_pos hcid]
      exact ⟨c, hc, hcid⟩
    · have hnlt : ¬ (c.id < id) := by omega
      have hstep : (h.jump id).1 = (jumpUndoLoop id (h.undoStack.length + 1) h []).1 := by
        simp only [History.jump, hen, Bool.not_true, Bool.false_eq_true, if_false, hc,
          hnlt]
      rw [hstep]
      exact jumpUndoLoop_land id _ h [] hen (Nat.lt_succ_self _)

/-- Witness for C3 at a concrete input: jumping to the id already on top
is a no-op with a single `stack:changed`. -/
theorem c3_witness :
    oneCmdState.jump 1 =
      (oneCmdState, [Event.stackChanged oneCmdState.undoStack oneCmdState.redoStack]) :=
  (c3_jump oneCmdState 1 rfl).1
    { id := 1, executed := true, executeTime := 0, tag := 1 } (by decide) rfl

/-- The state used to refute C4: reachable, empty `undoStack` but
nonempty `redoStack` (execute one command, then undo it). -/
def c4state : History := (((History.mk0 true 500).execute cmdA true 0).state.undo 1).state

/-- C4 counterexample: from a state with empty `undoStack` and the undone
command sitting on `redoStack`, `undo()` is a no-op but the following
`redo()` reapplies that command, so `undoStack` ends nonempty — not equal
to its (empty) pre-undo contents. -/
theorem c4_counterexample :
    ¬ ((c4state.undo 1).state.redo 1).state.undoStack = c4state.undoStack := by decide

/-- C4 (amended): `undo()` immediately followed by `redo()` restores
`undoStack` to its pre-undo contents — same command instances, same
order — for every engine state whose `undoStack` is nonempty (when the
engine is disabled both calls are no-ops, so the stack is likewise
unchanged); the unrestricted claim fails only on an empty `undoStack`
with a nonempty `redoStack`. -/
theorem c4_undo_redo (h : History) (hne : h.undoStack ≠ []) :
    ((h.undo 1).state.redo 1).state.undoStack = h.undoStack := by
  by_cases hen : h.enabled = true
  · rcases h.undoStack.eq_nil_or_concat with hu | ⟨l, c, hu⟩
    · exact absurd hu hne
    · rw [List.concat_eq_append] at hu
      rw [undo_one_concat h hen l c hu]
      have hred := redo_one_concat
        { h with undoStack := l, redoStack := h.redoStack ++ [c] } hen h.redoStack c rfl
      rw [hred]
      simpa using hu.symm
  · have hd : h.enabled = false := by simpa using hen
    rw [undo_disabled h hd 1, redo_disabled h hd 1]

/-- Witness for C4 at a concrete input: one command on the undo stack. -/
theorem c4_witness :
    ((oneCmdState.undo 1).state.redo 1).state.undoStack = oneCmdState.undoStack :=
  c4_undo_redo oneCmdState (by decide)

/-- C7: an exception from a command's `execute()` or `undo()` raised
during `execute`, `undo`, or `redo` propagates out of the engine
uncaught, and the stack mutation performed before the failing call is not
rolled back: a throwing `execute()` inside `execute` escapes with the
command already pushed (id stamped) and `redoStack` not yet cleared; a
throwing `undo()` inside `undo` escapes with the command already popped
off `undoStack` and not yet on `redoStack`; a throwing `execute()` inside
`redo` escapes with the command already popped off `redoStack` and not
yet on `undoStack`; and the no-throw runs agree with the plain
`execute` / `undo` / `redo` semantics. -/
theorem c7_fail_forward (h : History) (c : BaseCmd) (t : Nat) :
    (h.executeE c true t true = Except.error { h with undoStack := (if h.stackSize < h.undoStack.length then h.undoStack.tail else h.undoStack) ++ [{ c with id := h.idCounter + 1 }], idCounter := h.idCounter + 1 }) ∧
    (∀ ne, h.executeE c ne t false = Except.ok (h.execute c ne t)) ∧
    (h.enabled = true → ∀ l cm, h.undoStack = l ++ [cm] →
      h.undoE true = Except.error { h with undoStack := l }) ∧
    (h.undoE false = Except.ok (h.undo 1)) ∧
    (h.enabled = true → ∀ l cm, h.redoStack = l ++ [cm] →
      h.redoE true = Except.error { h with redoStack := l }) ∧
    (h.redoE false = Except.ok (h.redo 1)) := by
  refine ⟨rfl, ?_, ?_, ?_, ?_, ?_⟩
  · intro ne
    cases ne <;> rfl
  · intro hen l cm hu
    simp [History.undoE, hen, hu]
  · by_cases hen : h.enabled = true
    · rcases h.undoStack.eq_nil_or_concat with hu | ⟨l, cm, hu⟩
      · rw [undo_one_nil h hen hu]
        simp [History.undoE, hen, hu]
      · rw [List.concat_eq_append] at hu
        rw [undo_one_concat h hen l cm hu]
        simp [History.undoE, hen, hu]
    · have hd : h.enabled = false := by simpa using hen
      rw [undo_disabled h hd 1]
      simp [History.undoE, hd]
  · intro hen l cm hr
    simp [History.redoE, hen, hr]
  · by_cases hen : h.enabled = true
    · rcases h.redoStack.eq_nil_or_concat with hr | ⟨l, cm, hr⟩
      · rw [redo_one_nil h hen hr]
        simp [History.redoE, hen, hr]
      · rw [List.concat_eq_append] at hr
        rw [redo_one_concat h hen l cm hr]
        simp [History.redoE, hen, hr]
    · have hd : h.enabled = false := by simpa using hen
      rw [redo_disabled h hd 1]
      simp [History.redoE, hd]

/-- Witness for C7 at concrete inputs: a throwing `undo()` on a
single-command undo stack escapes with the stack popped, and a throwing
`execute()` inside `redo` on a single-command redo stack escapes with
that stack popped. -/
theorem c7_witness :
    oneCmdState.undoE true = Except.error { oneCmdState with undoStack := [] } ∧
    c4state.redoE true = Except.error { c4state with redoStack := [] } :=
  ⟨(c7_fail_forward oneCmdState cmdB 5).2.2.1 rfl []
      { id := 1, executed := true, executeTime := 0, tag := 1 } (by decide),
    (c7_fail_forward c4state cmdB 5).2.2.2.2.1 (by decide) []
      { id := 1, executed := true, executeTime := 0, tag := 1 } (by decide)⟩

/-- C9: in every state reachable by any sequence of the public
operations, the command ids in `undoStack` read oldest (index 0) to
newest (tail) are strictly increasing; the ids across both stacks are
pairwise distinct; and every stored id is at most `idCounter`, so the
next id the engine assigns (`idCounter + 1`) is fresh — an id is never
reused. -/
theorem c9_monotone_ids (h : History) (hr : Reach h) :
    (h.undoStack.map BaseCmd.id).Pairwise (· < ·) ∧
    ((h.undoStack ++ h.redoStack).map BaseCmd.id).Nodup ∧
    (∀ c ∈ h.undoStack ++ h.redoStack, c.id ≤ h.idCounter) := by
  obtain ⟨hp, hb, _⟩ := reach_histInv hr
  have hpc := hp
  rw [combined, List.map_append] at hpc
  refine ⟨(List.pairwise_append.mp hpc).1, ?_, ?_⟩
  · have hnd : ((combined h).map BaseCmd.id).Nodup :=
      hp.imp (fun hlt => Nat.ne_of_lt hlt)
    have hperm : List.Perm ((combined h).map BaseCmd.id)
        ((h.undoStack ++ h.redoStack).map BaseCmd.id) := by
      rw [combined]
      exact ((h.redoStack.reverse_perm).append_left h.undoStack).map BaseCmd.id
    exact hperm.nodup hnd
  · intro c hc
    rcases List.mem_append.mp hc with hcu | hcr
    · exact hb c (List.mem_append_left _ hcu)
    · exact hb c (List.mem_append_right _ (List.mem_reverse.mpr hcr))

/-- Witness for C9 at a concrete input: the reachable one-command state. -/
theorem c9_witness :
    ((oneCmdState.undoStack.map BaseCmd.id).Pairwise (· < ·)) ∧
    (((oneCmdState.undoStack ++ oneCmdState.redoStack).map BaseCmd.id).Nodup) ∧
    (∀ c ∈ oneCmdState.undoStack ++ oneCmdState.redoStack,
      c.id ≤ oneCmdState.idCounter) :=
  c9_monotone_ids oneCmdState (Reach.exec cmdA true 0 (Reach.init true 500))
